import Mathlib

/-!
Verification of the gitlab-downloader CLI (src/cli.js).

The repository holds two variants of the same tool:
  * a parallel variant whose `downloadFolder` maps children to concurrent
    tasks joined with `Promise.all`, and which keeps a run-skip cache of the
    last commit hash plus a SHA-256 fingerprint of the arguments, and
  * a sequential variant whose `downloadFolder` iterates children with
    `await` in a `for`-loop and which has no cache.

This file shallowly embeds both variants.  Remote data (tree listings and
file contents, including their failures) is modelled as an inductive tree
handed to the engine; the engine's observable behaviour (remote calls,
warnings, local writes, "folder ignored" notices) is modelled as a list of
events, linearized in child order.  Bytes are lists of naturals.
-/

namespace GitlabDL

/-! ## Generic list helpers: JS `String.prototype.includes` -/

/-- `listStartsWith hay nd` decides whether `nd` is a prefix of `hay`. -/
def listStartsWith : List Char → List Char → Bool
  | _, [] => true
  | [], _ :: _ => false
  | a :: hs, b :: ns => a == b && listStartsWith hs ns

/-- `hasSub hay nd` decides whether `nd` occurs as a contiguous substring
anywhere inside `hay`; this is the semantics of JS `hay.includes(nd)`. -/
def hasSub (hay nd : List Char) : Bool :=
  if listStartsWith hay nd then true
  else
    match hay with
    | [] => false
    | _ :: t => hasSub t nd

/-- JS `fullPath.includes(accept)` on strings. -/
def jsIncludes (s sub : String) : Bool :=
  hasSub s.data sub.data

/-! ## Paths -/

/-- `const fullPath = folderPath ? folderPath + '/' + item.name : item.name;`
(the empty string is falsy in JS). -/
def fullPathOf (folderPath name : String) : String :=
  if folderPath = "" then name else folderPath ++ "/" ++ name

/-- `path.join` of two segments (the external path library; empty segments
are dropped, which is all the tool relies on). -/
def pathJoin (a b : String) : String :=
  if a = "" then b else if b = "" then a else a ++ "/" ++ b

/-! ## Remote model and observable events -/

/-- Observable behaviour of one run, in order:
remote tree-listing calls, listing-failure warnings, raw-file fetch calls,
fetch-failure warnings, local file writes (`fs.outputFile`, which creates
missing parent directories), "Ignoring folder" notices, and the fatal
`console.error` for an unresolvable commit hash. -/
inductive Event where
  | listCall : String → Event
  | warnTree : String → Event
  | fetchCall : String → Event
  | warnFile : String → Event
  | wrote : String → List Nat → Event
  | ignored : String → Event
  | logError : Event
  deriving DecidableEq, Repr

mutual
/-- A remote tree node.  `blob` carries the outcome of fetching its raw
content (`none` models a failed fetch); `tree` carries the outcome of
listing its children; `other` models any further GitLab entry type
(e.g. a submodule `commit`), which the code silently skips. -/
inductive Node where
  | blob : Option (List Nat) → Node
  | tree : Listing → Node
  | other : Node

/-- Outcome of one `GET .../repository/tree` call: the child entries, or a
transport/remote error. -/
inductive Listing where
  | fail : Listing
  | ok : Entries → Listing

/-- The array of child entries returned by the tree endpoint: each entry is
a name together with its node. -/
inductive Entries where
  | nil : Entries
  | cons : String → Node → Entries → Entries
end

/-- `item.type === 'tree'` -/
def nodeIsTree : Node → Bool
  | .tree _ => true
  | _ => false

/-- Concatenation of two entry sequences. -/
def Entries.append : Entries → Entries → Entries
  | .nil, ys => ys
  | .cons n x xs, ys => .cons n x (xs.append ys)

/-- The part of the effective configuration the traversal engine reads
(the globals `INCLUDE_ONLY`, `DOWNLOAD_DIR` and `process.cwd()`). -/
structure Ctx where
  includeOnly : List String
  downloadDir : String
  cwd : String
  deriving DecidableEq

/-! ## Parallel variant (the cached tool): `fetchTree`, `downloadFile`,
`downloadFolder` -/

/-- `fetchTree(folderPath)`: issues the tree-listing call; on error it logs
`Failed to fetch tree for ...` and returns `[]`. -/
def fetchTreeEv (folderPath : String) : Listing → Entries × List Event
  | .ok items => (items, [.listCall folderPath])
  | .fail => (.nil, [.listCall folderPath, .warnTree folderPath])

/-- `downloadFile(filePath)` with fetch outcome `res`: issues the raw-file
call; on success writes the bytes to
`path.join(process.cwd(), DOWNLOAD_DIR, filePath)` (via `fs.outputFile`,
which creates missing parent directories); on error logs
`Failed to download ...` and writes nothing. -/
def downloadFileEv (ctx : Ctx) (filePath : String) : Option (List Nat) → List Event
  | some bytes =>
      [.fetchCall filePath, .wrote (pathJoin (pathJoin ctx.cwd ctx.downloadDir) filePath) bytes]
  | none => [.fetchCall filePath, .warnFile filePath]

mutual
/-- `downloadFolder(folderPath)` of the parallel variant: list the children
(`fetchTree`, inlined: on error it logs and yields no children), map each
to a task, `Promise.all` the tasks.  Events are linearized in child
order. -/
def downloadFolderP (ctx : Ctx) (folderPath : String) (l : Listing) : List Event :=
  match l with
  | .fail => [.listCall folderPath, .warnTree folderPath]
  | .ok items => .listCall folderPath :: tasksP ctx folderPath items
termination_by sizeOf l

/-- `items.map(async (item) => ...)` joined by `Promise.all`. -/
def tasksP (ctx : Ctx) (folderPath : String) (items : Entries) : List Event :=
  match items with
  | .nil => []
  | .cons name node rest => taskP ctx folderPath name node ++ tasksP ctx folderPath rest
termination_by sizeOf items

/-- The task for one child item of the parallel variant. -/
def taskP (ctx : Ctx) (folderPath : String) (name : String) (node : Node) : List Event :=
  let fullPath := fullPathOf folderPath name
  if decide (0 < ctx.includeOnly.length) && nodeIsTree node
      && !(ctx.includeOnly.any fun accept => jsIncludes fullPath accept) then
    [.ignored fullPath]
  else
    match node with
    | .blob res => downloadFileEv ctx fullPath res
    | .tree sub => downloadFolderP ctx fullPath sub
    | .other => []
termination_by sizeOf node
end

/-! ## Sequential variant (the cache-less tool): its own `fetchTree`,
`downloadFile`, `downloadFolder` (a `for`-loop with `await` and
`continue`) -/

/-- The sequential variant's `fetchTree` (same behaviour). -/
def fetchTreeEvS (folderPath : String) : Listing → Entries × List Event
  | .ok items => (items, [.listCall folderPath])
  | .fail => (.nil, [.listCall folderPath, .warnTree folderPath])

/-- The sequential variant's `downloadFile` (same behaviour, `console.log`
instead of `console.debug` on success). -/
def downloadFileEvS (ctx : Ctx) (filePath : String) : Option (List Nat) → List Event
  | some bytes =>
      [.fetchCall filePath, .wrote (pathJoin (pathJoin ctx.cwd ctx.downloadDir) filePath) bytes]
  | none => [.fetchCall filePath, .warnFile filePath]

mutual
/-- `downloadFolder(folderPath)` of the sequential variant (its `fetchTree`
inlined as in `downloadFolderP`). -/
def downloadFolderS (ctx : Ctx) (folderPath : String) (l : Listing) : List Event :=
  match l with
  | .fail => [.listCall folderPath, .warnTree folderPath]
  | .ok items => .listCall folderPath :: loopS ctx folderPath items
termination_by sizeOf l

/-- `for (const item of items) { ... }` with `continue` on the ignore
branch and `await` on each download. -/
def loopS (ctx : Ctx) (folderPath : String) (items : Entries) : List Event :=
  match items with
  | .nil => []
  | .cons name node rest =>
    let fullPath := fullPathOf folderPath name
    if decide (0 < ctx.includeOnly.length) && nodeIsTree node
        && !(ctx.includeOnly.any fun accept => jsIncludes fullPath accept) then
      .ignored fullPath :: loopS ctx folderPath rest
    else
      match node with
      | .blob res => downloadFileEvS ctx fullPath res ++ loopS ctx folderPath rest
      | .tree sub => downloadFolderS ctx fullPath sub ++ loopS ctx folderPath rest
      | .other => loopS ctx folderPath rest
termination_by sizeOf items
end

/-! ## Observation helpers -/

/-- The local writes performed during a run: `(absolute path, bytes)` in
order of occurrence. -/
def writesOf : List Event → List (String × List Nat)
  | [] => []
  | .wrote p b :: rest => (p, b) :: writesOf rest
  | _ :: rest => writesOf rest

/-- `true` iff no "Ignoring folder" notice occurs. -/
def noIgnores : List Event → Bool
  | [] => true
  | .ignored _ :: _ => false
  | _ :: rest => noIgnores rest

/-- The filter predicate of the spec, read off the engine's ignore
condition for a directory entry: descend iff the ignore condition
`INCLUDE_ONLY.length > 0 && !INCLUDE_ONLY.some(a => fullPath.includes(a))`
does not fire. -/
def shouldDescend (includeOnly : List String) (fullPath : String) : Bool :=
  !(decide (0 < includeOnly.length)
      && !(includeOnly.any fun accept => jsIncludes fullPath accept))

/-! ## `JSON.stringify` of the argument record

`generateArgsHash` hashes
`JSON.stringify({ PROJECT_ID, BRANCH, INCLUDE_ONLY, DOWNLOAD_DIR })`.
The four fields are a string, a string, an array of strings and a string,
so the relevant part of `JSON.stringify` is object/array punctuation plus
ECMA-262 `QuoteJSONString` escaping of string values. -/

/-- Lowercase hexadecimal digit, `0`–`15` ↦ `'0'`–`'9'`,`'a'`–`'f'`. -/
def hexDigitChar (n : Nat) : Char :=
  Char.ofNat (if n < 10 then 48 + n else 87 + n)

/-- ECMA-262 `QuoteJSONString` escaping of a single code point: `"` and
`\` get a backslash, the five named control escapes are used where they
exist, the remaining control characters become `\u00xx`, and every other
character is emitted literally. -/
def escChar (c : Char) : List Char :=
  if c = '"' then ['\\', '"']
  else if c = '\\' then ['\\', '\\']
  else if c.toNat = 8 then ['\\', 'b']
  else if c.toNat = 9 then ['\\', 't']
  else if c.toNat = 10 then ['\\', 'n']
  else if c.toNat = 12 then ['\\', 'f']
  else if c.toNat = 13 then ['\\', 'r']
  else if c.toNat < 32 then
    ['\\', 'u', '0', '0', hexDigitChar (c.toNat / 16), hexDigitChar (c.toNat % 16)]
  else [c]

/-- `QuoteJSONString` body: escape every character. -/
def escapeChars : List Char → List Char
  | [] => []
  | c :: cs => escChar c ++ escapeChars cs

/-- `JSON.stringify` of a string value (as a character list). -/
def jstrL (s : List Char) : List Char :=
  '"' :: (escapeChars s ++ ['"'])

/-- `JSON.stringify` of a string value. -/
def jstrS (s : String) : List Char :=
  jstrL s.data

/-- Continuation of a stringified array after its first element: `,`-led
elements, closed by `]`. -/
def sepTail : List String → List Char
  | [] => [']']
  | y :: rest => ',' :: (jstrS y ++ sepTail rest)

/-- `JSON.stringify` of an array of strings. -/
def jarrL : List String → List Char
  | [] => ['[', ']']
  | x :: rest => '[' :: (jstrS x ++ sepTail rest)

/-- The effective configuration tuple whose change invalidates the cache:
`PROJECT_ID`, `BRANCH`, `INCLUDE_ONLY`, `DOWNLOAD_DIR`. -/
structure ArgsConfig where
  projectId : String
  branch : String
  includeOnly : List String
  downloadDir : String
  deriving DecidableEq

/-- `JSON.stringify({ PROJECT_ID, BRANCH, INCLUDE_ONLY, DOWNLOAD_DIR })`,
as a character list (shorthand object properties, insertion key order). -/
def argsChars (c : ArgsConfig) : List Char :=
  ("\x7b\"PROJECT_ID\":").data ++ jstrS c.projectId
    ++ (",\"BRANCH\":").data ++ jstrS c.branch
    ++ (",\"INCLUDE_ONLY\":").data ++ jarrL c.includeOnly
    ++ (",\"DOWNLOAD_DIR\":").data ++ jstrS c.downloadDir
    ++ ("\x7d").data

/-- The `argsString` fed to the hash. -/
def argsString (c : ArgsConfig) : String :=
  ⟨argsChars c⟩

/-! ## SHA-256 (`crypto.createHash('sha256').update(s).digest('hex')`)

Node's `hash.update` with a string input encodes it as UTF-8.  Words are
naturals kept below `2^32` by reducing after every addition. -/

/-- UTF-8 encoding of one scalar value. -/
def utf8Char (c : Char) : List Nat :=
  let n := c.toNat
  if n < 128 then [n]
  else if n < 2048 then [192 + n / 64, 128 + n % 64]
  else if n < 65536 then [224 + n / 4096, 128 + n / 64 % 64, 128 + n % 64]
  else [240 + n / 262144, 128 + n / 4096 % 64, 128 + n / 64 % 64, 128 + n % 64]

/-- UTF-8 encoding of a character sequence. -/
def utf8Encode : List Char → List Nat
  | [] => []
  | c :: cs => utf8Char c ++ utf8Encode cs

/-- Addition on 32-bit words. -/
def wadd (a b : Nat) : Nat :=
  (a + b) % 4294967296

/-- Right-rotation of a 32-bit word by `n`. -/
def rotr (n a : Nat) : Nat :=
  (a / 2 ^ n + a % 2 ^ n * 2 ^ (32 - n)) % 4294967296

/-- `Σ0` -/
def bigSigma0 (a : Nat) : Nat := rotr 2 a ^^^ rotr 13 a ^^^ rotr 22 a

/-- `Σ1` -/
def bigSigma1 (a : Nat) : Nat := rotr 6 a ^^^ rotr 11 a ^^^ rotr 25 a

/-- `σ0` -/
def smallSigma0 (a : Nat) : Nat := rotr 7 a ^^^ rotr 18 a ^^^ a / 2 ^ 3

/-- `σ1` -/
def smallSigma1 (a : Nat) : Nat := rotr 17 a ^^^ rotr 19 a ^^^ a / 2 ^ 10

/-- `Ch(e,f,g)` -/
def chW (e f g : Nat) : Nat := (e &&& f) ^^^ ((4294967295 ^^^ e) &&& g)

/-- `Maj(a,b,c)` -/
def majW (a b c : Nat) : Nat := (a &&& b) ^^^ (a &&& c) ^^^ (b &&& c)

/-- The 64 SHA-256 round constants. -/
def K256 : List Nat :=
  [1116352408, 1899447441, 3049323471, 3921009573,
   961987163, 1508970993, 2453635748, 2870763221,
   3624381080, 310598401, 607225278, 1426881987,
   1925078388, 2162078206, 2614888103, 3248222580,
   3835390401, 4022224774, 264347078, 604807628,
   770255983, 1249150122, 1555081692, 1996064986,
   2554220882, 2821834349, 2952996808, 3210313671,
   3336571891, 3584528711, 113926993, 338241895,
   666307205, 773529912, 1294757372, 1396182291,
   1695183700, 1986661051, 2177026350, 2456956037,
   2730485921, 2820302411, 3259730800, 3345764771,
   3516065817, 3600352804, 4094571909, 275423344,
   430227734, 506948616, 659060556, 883997877,
   958139571, 1322822218, 1537002063, 1747873779,
   1955562222, 2024104815, 2227730452, 2361852424,
   2428436474, 2756734187, 3204031479, 3329325298]

/-- A SHA-256 state: eight 32-bit words. -/
structure Hash8 where
  h0 : Nat
  h1 : Nat
  h2 : Nat
  h3 : Nat
  h4 : Nat
  h5 : Nat
  h6 : Nat
  h7 : Nat

/-- The eight initial hash values. -/
def initH8 : Hash8 :=
  ⟨1779033703, 3144134277, 1013904242, 2773480762,
   1359893119, 2600822924, 528734635, 1541459225⟩

/-- Every word of the state is below `2^32`. -/
def Hash8.bounded (h : Hash8) : Prop :=
  h.h0 < 4294967296 ∧ h.h1 < 4294967296 ∧ h.h2 < 4294967296 ∧ h.h3 < 4294967296
    ∧ h.h4 < 4294967296 ∧ h.h5 < 4294967296 ∧ h.h6 < 4294967296 ∧ h.h7 < 4294967296

/-- Message-schedule extension word, computed from the last 16 words of the
schedule built so far. -/
def nextW (w : List Nat) : Nat :=
  let t := w.length
  wadd (wadd (smallSigma1 (w.getD (t - 2) 0)) (w.getD (t - 7) 0))
       (wadd (smallSigma0 (w.getD (t - 15) 0)) (w.getD (t - 16) 0))

/-- Append `k` schedule-extension words. -/
def extendW : Nat → List Nat → List Nat
  | 0, w => w
  | k + 1, w => extendW k (w ++ [nextW w])

/-- Big-endian bytes of `n`, fixed width `k`. -/
def toBytesBE : Nat → Nat → List Nat
  | 0, _ => []
  | k + 1, n => toBytesBE k (n / 256) ++ [n % 256]

/-- Group bytes into big-endian 32-bit words. -/
def bytesToWords : List Nat → List Nat
  | b0 :: b1 :: b2 :: b3 :: rest =>
      (((b0 * 256 + b1) * 256 + b2) * 256 + b3) :: bytesToWords rest
  | _ => []

/-- One round of the compression function.  The state fields are the
working variables `a`–`h`; the argument is `(Wt, Kt)`. -/
def compressStep (s : Hash8) (wk : Nat × Nat) : Hash8 :=
  let t1 := wadd s.h7 (wadd (bigSigma1 s.h4) (wadd (chW s.h4 s.h5 s.h6) (wadd wk.2 wk.1)))
  let t2 := wadd (bigSigma0 s.h0) (majW s.h0 s.h1 s.h2)
  ⟨wadd t1 t2, s.h0, s.h1, s.h2, wadd s.h3 t1, s.h4, s.h5, s.h6⟩

/-- Compression of one 64-byte block into the running hash. -/
def compress (h : Hash8) (block : List Nat) : Hash8 :=
  let w := extendW 48 (bytesToWords block)
  let f := (w.zip K256).foldl compressStep h
  ⟨wadd h.h0 f.h0, wadd h.h1 f.h1, wadd h.h2 f.h2, wadd h.h3 f.h3,
   wadd h.h4 f.h4, wadd h.h5 f.h5, wadd h.h6 f.h6, wadd h.h7 f.h7⟩

/-- SHA-256 padding: `0x80`, zeros to 56 mod 64, then the 64-bit big-endian
bit length. -/
def padMessage (msg : List Nat) : List Nat :=
  msg ++ 128 :: List.replicate ((119 - msg.length % 64) % 64) 0
      ++ toBytesBE 8 (8 * msg.length)

/-- Split into 64-byte chunks. -/
def chunks64 (l : List Nat) : List (List Nat) :=
  if h : l = [] then []
  else l.take 64 :: chunks64 (l.drop 64)
termination_by l.length
decreasing_by
  have hl : 0 < l.length := List.length_pos.mpr h
  simp [List.length_drop]
  omega

/-- The SHA-256 hash of a byte sequence, as eight words. -/
def sha256Hash (msg : List Nat) : Hash8 :=
  (chunks64 (padMessage msg)).foldl compress initH8

/-- The digest as one natural below `2^256`. -/
def digestNat (h : Hash8) : Nat :=
  (((((((h.h0 * 4294967296 + h.h1) * 4294967296 + h.h2) * 4294967296 + h.h3)
    * 4294967296 + h.h4) * 4294967296 + h.h5) * 4294967296 + h.h6) * 4294967296 + h.h7)

/-- Fixed-width lowercase hexadecimal rendering. -/
def toHexFixed : Nat → Nat → List Char
  | 0, _ => []
  | k + 1, n => toHexFixed k (n / 16) ++ [hexDigitChar (n % 16)]

/-- `digest('hex')`: the 64-character lowercase hex digest. -/
def sha256hex (msg : List Nat) : String :=
  ⟨toHexFixed 64 (digestNat (sha256Hash msg))⟩

/-- `generateArgsHash()`: SHA-256 hex digest of the stringified argument
record. -/
def generateArgsHash (c : ArgsConfig) : String :=
  sha256hex (utf8Encode (argsChars c))

/-! ## Run-skip cache and `main` (cached variant) -/

/-- The JSON record persisted in `.cache/last_commit.json`.  Fields are
optional: a readable file may lack either key (and on read failure the code
falls back to the empty object, whose destructuring yields `undefined` for
both). -/
structure CachedData where
  commit : Option String
  argsHash : Option String
  deriving DecidableEq

/-- JS falsiness of the commit-hash lookup result: `null`/`undefined`
(the `catch` branch returns `null`) and the empty string are falsy. -/
def jsFalsyStr : Option String → Bool
  | none => true
  | some s => s.isEmpty

/-- The skip decision of `main`:
`latestCommitHash === cachedCommit && currentArgsHash === cachedArgsHash`,
where absent/unreadable prior state destructures to `undefined` fields. -/
def shouldSkip (latest fingerprint : String) (prior : Option CachedData) : Bool :=
  let c := prior.getD ⟨none, none⟩
  (c.commit == some latest) && (c.argsHash == some fingerprint)

/-- `const FOLDERS_TO_DOWNLOAD = ['proto', 'build'];` -/
def foldersToDownload : List String := ["proto", "build"]

/-- The external world of one cached-variant run: the commit-hash lookup
outcome, the persisted-state read outcome, the effective configuration,
the working directory, and the remote listing of each root folder. -/
structure MainEnv where
  latest : Option String
  cacheRead : Option CachedData
  cfg : ArgsConfig
  cwd : String
  rootListing : String → Listing

/-- The traversal context induced by the configuration. -/
def MainEnv.ctx (env : MainEnv) : Ctx :=
  ⟨env.cfg.includeOnly, env.cfg.downloadDir, env.cwd⟩

/-- Result of one run: the events, what `fs.writeJsonSync` persisted (if
reached), and the process exit code. -/
structure MainResult where
  events : List Event
  saved : Option (String × String)
  exitCode : Nat

/-- `for (const folder of FOLDERS_TO_DOWNLOAD) await downloadFolder(folder)` -/
def runRoots (ctx : Ctx) (rl : String → Listing) : List String → List Event
  | [] => []
  | r :: rest => downloadFolderP ctx r (rl r) ++ runRoots ctx rl rest

/-- `main()` of the cached variant.  On a falsy commit hash it logs an
error and returns — the process then exits normally with code 0 (nothing
ever sets a non-zero exit code; `main().catch(console.error)` also
swallows rejections).  Otherwise it reads the cache, computes the args
hash, either skips or downloads every root and persists the new state. -/
def mainRun (env : MainEnv) : MainResult :=
  if jsFalsyStr env.latest then
    { events := [.logError], saved := none, exitCode := 0 }
  else
    let latest := env.latest.getD ""
    let currentArgsHash := generateArgsHash env.cfg
    if shouldSkip latest currentArgsHash env.cacheRead then
      { events := [], saved := none, exitCode := 0 }
    else
      { events := runRoots env.ctx env.rootListing foldersToDownload,
        saved := some (latest, currentArgsHash), exitCode := 0 }

/-! ## Spec-side mirror for the path claim

`specFullPath` and `specWrites` restate, in the spec's words, which files
get written where: each child's full path is the parent path and the child
name joined with `/` (just the name at root), and a downloaded file lands
at the destination root joined with its full path. -/

/-- The spec's full-path rule for a child entry. -/
def specFullPath (parent name : String) : String :=
  if parent = "" then name else parent ++ "/" ++ name

mutual
/-- Expected writes of a traversal rooted at `folderPath`, per the spec's
path rule. -/
def specWrites (ctx : Ctx) (folderPath : String) (l : Listing) : List (String × List Nat) :=
  match l with
  | .fail => []
  | .ok items => specWritesEntries ctx folderPath items
termination_by sizeOf l

/-- Expected writes contributed by a child list. -/
def specWritesEntries (ctx : Ctx) (folderPath : String) (items : Entries) : List (String × List Nat) :=
  match items with
  | .nil => []
  | .cons name node rest =>
      specWriteEntry ctx folderPath name node ++ specWritesEntries ctx folderPath rest
termination_by sizeOf items

/-- Expected writes contributed by one child. -/
def specWriteEntry (ctx : Ctx) (folderPath : String) (name : String) (node : Node) :
    List (String × List Nat) :=
  let fullPath := specFullPath folderPath name
  if decide (0 < ctx.includeOnly.length) && nodeIsTree node
      && !(ctx.includeOnly.any fun accept => jsIncludes fullPath accept) then
    []
  else
    match node with
    | .blob (some bytes) => [(pathJoin (pathJoin ctx.cwd ctx.downloadDir) fullPath, bytes)]
    | .blob none => []
    | .tree sub => specWrites ctx fullPath sub
    | .other => []
termination_by sizeOf node
end

/-- Decoder inverting `escChar`-escaping up to the closing quote; a proof
device used to show the stringification injective. -/
def hexVal (c : Char) : Nat :=
  if c.toNat ≥ 97 then c.toNat - 87 else c.toNat - 48

/-- Inverse of the named single-character escapes. -/
def unescChar (e : Char) : Char :=
  if e = 'b' then Char.ofNat 8
  else if e = 't' then Char.ofNat 9
  else if e = 'n' then Char.ofNat 10
  else if e = 'f' then Char.ofNat 12
  else if e = 'r' then Char.ofNat 13
  else e

mutual
/-- Consume an escaped string body up to its closing quote, returning the
unescaped body and the remainder of the input. -/
def unescapeAux (l : List Char) : Option (List Char × List Char) :=
  match l with
  | [] => none
  | c :: rest =>
    if c = '"' then some ([], rest)
    else if c = '\\' then unescSlash rest
    else
      match unescapeAux rest with
      | some (s, r) => some (c :: s, r)
      | none => none
termination_by l.length

/-- Continuation of `unescapeAux` right after a backslash. -/
def unescSlash (l : List Char) : Option (List Char × List Char) :=
  match l with
  | [] => none
  | e :: rest =>
    if e = 'u' then
      match rest with
      | _ :: _ :: x :: y :: rest3 =>
        match unescapeAux rest3 with
        | some (s, r) => some (Char.ofNat (hexVal x * 16 + hexVal y) :: s, r)
        | none => none
      | _ => none
    else
      match unescapeAux rest with
      | some (s, r) => some (unescChar e :: s, r)
      | none => none
termination_by l.length
end

/-! # Theorems -/

/-! ## Substring semantics -/

theorem listStartsWith_iff (hay nd : List Char) :
    listStartsWith hay nd = true ↔ ∃ t, hay = nd ++ t := by
  induction nd generalizing hay with
  | nil => simp [listStartsWith]
  | cons b bs ih =>
    cases hay with
    | nil => simp [listStartsWith]
    | cons a as =>
      simp only [listStartsWith, Bool.and_eq_true, beq_iff_eq, ih, List.cons_append,
        List.cons.injEq]
      constructor
      · rintro ⟨rfl, t, rfl⟩; exact ⟨t, rfl, rfl⟩
      · rintro ⟨t, rfl, rfl⟩; exact ⟨rfl, t, rfl⟩

theorem hasSub_iff (hay nd : List Char) :
    hasSub hay nd = true ↔ ∃ pre suf, hay = pre ++ nd ++ suf := by
  induction hay with
  | nil =>
    cases nd with
    | nil => simp [hasSub, listStartsWith]
    | cons c cs =>
      simp only [hasSub, listStartsWith]
      constructor
      · intro h; exact absurd h (by simp)
      · rintro ⟨pre, suf, h⟩
        exact absurd h.symm (by simp)
  | cons a t ih =>
    have hdef : hasSub (a :: t) nd
        = if listStartsWith (a :: t) nd = true then true else hasSub t nd := rfl
    rw [hdef]
    by_cases hs : listStartsWith (a :: t) nd = true
    · obtain ⟨u, hu⟩ := (listStartsWith_iff _ _).mp hs
      simp only [hs, if_true, true_iff]
      exact ⟨[], u, by simp [hu]⟩
    · rw [if_neg hs, ih]
      constructor
      · rintro ⟨pre, suf, rfl⟩
        exact ⟨a :: pre, suf, by simp⟩
      · rintro ⟨pre, suf, h⟩
        cases pre with
        | nil =>
          exact absurd ((listStartsWith_iff _ _).mpr ⟨suf, by simpa using h⟩) hs
        | cons p ps =>
          simp only [List.cons_append, List.cons.injEq] at h
          exact ⟨ps, suf, h.2⟩

theorem hasSub_append_right {p nd : List Char} (q : List Char)
    (h : hasSub p nd = true) : hasSub (p ++ q) nd = true := by
  rw [hasSub_iff] at h ⊢
  obtain ⟨pre, suf, rfl⟩ := h
  exact ⟨pre, suf ++ q, by simp⟩

theorem hasSub_nil_right (hay : List Char) : hasSub hay [] = true := by
  cases hay <;> simp [hasSub, listStartsWith]

/-! ## The filter predicate -/

theorem shouldDescend_empty (p : String) : shouldDescend [] p = true := by
  simp [shouldDescend]

theorem shouldDescend_of_any {flt : List String} {p : String}
    (h : (flt.any fun accept => jsIncludes p accept) = true) :
    shouldDescend flt p = true := by
  simp [shouldDescend, h]

theorem shouldDescend_mono (flt : List String) (p n : String)
    (h : shouldDescend flt p = true) :
    shouldDescend flt (fullPathOf p n) = true := by
  rcases flt with - | ⟨f, fs⟩
  · exact shouldDescend_empty _
  · simp only [shouldDescend, List.length_cons, Bool.not_eq_true', Bool.and_eq_false_iff,
      decide_eq_false_iff_not, not_lt, Bool.not_eq_false'] at h
    rcases h with h | h
    · omega
    · apply shouldDescend_of_any
      rw [List.any_eq_true] at h ⊢
      obtain ⟨t, ht, hinc⟩ := h
      refine ⟨t, ht, ?_⟩
      unfold jsIncludes at hinc ⊢
      unfold fullPathOf
      by_cases hp : p = ""
      · subst hp
        have hnil : t.data = [] := by
          rw [hasSub_iff] at hinc
          obtain ⟨pre, suf, hps⟩ := hinc
          have h0 : ("" : String).data = [] := rfl
          rw [h0] at hps
          have h1 : pre = [] ∧ t.data = [] ∧ suf = [] := by simpa using hps.symm
          exact h1.2.1
        simp [hnil, hasSub_nil_right]
      · rw [if_neg hp]
        have : (p ++ "/" ++ n).data = p.data ++ ("/" ++ n).data := by
          simp [String.data_append, List.append_assoc]
        rw [this]
        exact hasSub_append_right _ hinc

/-- The engine's ignore condition cannot fire on a path the filter lets
through. -/
theorem ignore_cond_false {flt : List String} {fp : String}
    (h : shouldDescend flt fp = true) (node : Node) :
    (decide (0 < flt.length) && nodeIsTree node
      && !(flt.any fun accept => jsIncludes fp accept)) = false := by
  cases hd : decide (0 < flt.length) <;>
    cases ha : flt.any fun accept => jsIncludes fp accept <;>
    simp_all [shouldDescend]

/-! ## Event-list observations -/

theorem noIgnores_append (a b : List Event) :
    noIgnores (a ++ b) = (noIgnores a && noIgnores b) := by
  induction a with
  | nil => simp [noIgnores]
  | cons e rest ih => cases e <;> simp [noIgnores, ih]

theorem writesOf_append (a b : List Event) :
    writesOf (a ++ b) = writesOf a ++ writesOf b := by
  induction a with
  | nil => simp [writesOf]
  | cons e rest ih => cases e <;> simp [writesOf, ih]

/-! ## No ignores below a directory that passed the filter -/

mutual
theorem noIgnores_folder (ctx : Ctx) (folderPath : String) (l : Listing)
    (h : shouldDescend ctx.includeOnly folderPath = true) :
    noIgnores (downloadFolderP ctx folderPath l) = true := by
  cases l with
  | fail => simp [downloadFolderP, noIgnores]
  | ok items =>
    have := noIgnores_tasks ctx folderPath items h
    simpa [downloadFolderP, noIgnores] using this
termination_by sizeOf l

theorem noIgnores_tasks (ctx : Ctx) (folderPath : String) (items : Entries)
    (h : shouldDescend ctx.includeOnly folderPath = true) :
    noIgnores (tasksP ctx folderPath items) = true := by
  cases items with
  | nil => simp [tasksP, noIgnores]
  | cons name node rest =>
    rw [tasksP, noIgnores_append, noIgnores_task ctx folderPath name node h,
      noIgnores_tasks ctx folderPath rest h]
    rfl
termination_by sizeOf items

theorem noIgnores_task (ctx : Ctx) (folderPath name : String) (node : Node)
    (h : shouldDescend ctx.includeOnly folderPath = true) :
    noIgnores (taskP ctx folderPath name node) = true := by
  have hfull : shouldDescend ctx.includeOnly (fullPathOf folderPath name) = true :=
    shouldDescend_mono _ _ _ h
  rw [taskP.eq_def]
  simp only [ignore_cond_false hfull node, if_false, Bool.false_eq_true]
  cases node with
  | blob res => cases res <;> simp [downloadFileEv, noIgnores]
  | tree sub => exact noIgnores_folder ctx (fullPathOf folderPath name) sub hfull
  | other => simp [noIgnores]
termination_by sizeOf node
end

theorem tasksP_append (ctx : Ctx) (folderPath : String) (xs ys : Entries) :
    tasksP ctx folderPath (xs.append ys)
      = tasksP ctx folderPath xs ++ tasksP ctx folderPath ys := by
  cases xs with
  | nil => simp [Entries.append, tasksP]
  | cons name node rest =>
    simp [Entries.append, tasksP, tasksP_append ctx folderPath rest ys]
termination_by sizeOf xs

/-- C2: for every path and filter configuration, the descend predicate is
true when the filter list is empty; for a non-empty filter list it is true
iff some configured term occurs as a substring (anywhere) of the full
path; and it is consulted only for Directory entries — the task for a file
(blob) child is the plain download, whatever the filter. -/
theorem shouldDescend_filter_spec :
    (∀ p : String, shouldDescend [] p = true)
    ∧ (∀ (flt : List String) (p : String), flt ≠ [] →
        (shouldDescend flt p = true ↔
          ∃ t ∈ flt, ∃ pre suf, p.data = pre ++ t.data ++ suf))
    ∧ (∀ (ctx : Ctx) (folderPath name : String) (res : Option (List Nat)),
        taskP ctx folderPath name (.blob res)
          = downloadFileEv ctx (fullPathOf folderPath name) res) := by
  refine ⟨fun p => shouldDescend_empty p, fun flt p hne => ?_, fun ctx fp name res => ?_⟩
  · have hlen : decide (0 < flt.length) = true := by
      cases flt with
      | nil => exact absurd rfl hne
      | cons f fs => simp
    simp only [shouldDescend, hlen, Bool.true_and, Bool.not_eq_true',
      Bool.not_eq_false', List.any_eq_true]
    constructor
    · rintro ⟨t, ht, hinc⟩
      exact ⟨t, ht, (hasSub_iff _ _).mp hinc⟩
    · rintro ⟨t, ht, hsub⟩
      exact ⟨t, ht, (hasSub_iff _ _).mpr hsub⟩
  · rw [taskP.eq_def]
    simp [nodeIsTree]

theorem shouldDescend_filter_spec_witness :
    (["pro"] : List String) ≠ []
    ∧ (shouldDescend ["pro"] "proto/x" = true ↔
        ∃ t ∈ (["pro"] : List String), ∃ pre suf,
          ("proto/x" : String).data = pre ++ t.data ++ suf) :=
  ⟨by decide, shouldDescend_filter_spec.2.1 ["pro"] "proto/x" (by decide)⟩

/-- C9: the substring filter is monotone under path extension — a term
contained in a directory's full path is contained in every child's full
path — so once a directory passes the filter, no "Ignoring folder" notice
can occur anywhere below it. -/
theorem filter_monotone_under_descent :
    (∀ t p n : String,
        (∃ pre suf, p.data = pre ++ t.data ++ suf) →
        ∃ pre suf, (fullPathOf p n).data = pre ++ t.data ++ suf)
    ∧ (∀ (ctx : Ctx) (folderPath : String) (l : Listing),
        shouldDescend ctx.includeOnly folderPath = true →
        noIgnores (downloadFolderP ctx folderPath l) = true) := by
  constructor
  · intro t p n hsub
    have h1 : hasSub p.data t.data = true := (hasSub_iff _ _).mpr hsub
    have h2 : shouldDescend [t] p = true :=
      shouldDescend_of_any (by simp [jsIncludes, h1])
    have h3 := shouldDescend_mono [t] p n h2
    have hlen : decide (0 < ([t] : List String).length) = true := by simp
    simp only [shouldDescend, hlen, Bool.true_and, Bool.not_eq_true',
      Bool.not_eq_false', List.any_eq_true] at h3
    obtain ⟨u, hu, hinc⟩ := h3
    have : u = t := by simpa using hu
    subst this
    exact (hasSub_iff _ _).mp hinc
  · intro ctx folderPath l h
    exact noIgnores_folder ctx folderPath l h

theorem filter_monotone_under_descent_witness :
    (∃ pre suf, ("proto" : String).data = pre ++ ("rot" : String).data ++ suf)
    ∧ (∃ pre suf, (fullPathOf "proto" "x").data = pre ++ ("rot" : String).data ++ suf)
    ∧ shouldDescend (Ctx.mk ["rot"] "" "/w").includeOnly "proto" = true
    ∧ noIgnores (downloadFolderP (Ctx.mk ["rot"] "" "/w") "proto"
        (.ok (.cons "sub" (.tree (.ok (.cons "a" (.blob (some [1])) .nil))) .nil))) = true :=
  ⟨⟨['p'], ['o'], by decide⟩,
   filter_monotone_under_descent.1 "rot" "proto" "x" ⟨['p'], ['o'], by decide⟩,
   by decide,
   filter_monotone_under_descent.2 (Ctx.mk ["rot"] "" "/w") "proto" _ (by decide)⟩

/-- C4: a failed directory listing produces the empty child sequence plus
a warning and nothing else; a failed single-file fetch produces a warning
and no local write; and the events of a child list are the independent
concatenation of each child's events, so one child's failure leaves every
sibling's events intact — in particular a failing file among siblings
contributes exactly its own fetch call and warning. -/
theorem per_path_failures_isolated :
    (∀ (ctx : Ctx) (folderPath : String),
        downloadFolderP ctx folderPath .fail
          = [.listCall folderPath, .warnTree folderPath])
    ∧ (∀ (ctx : Ctx) (filePath : String),
        downloadFileEv ctx filePath none = [.fetchCall filePath, .warnFile filePath]
        ∧ writesOf (downloadFileEv ctx filePath none) = [])
    ∧ (∀ (ctx : Ctx) (folderPath : String) (xs ys : Entries),
        tasksP ctx folderPath (xs.append ys)
          = tasksP ctx folderPath xs ++ tasksP ctx folderPath ys)
    ∧ (∀ (ctx : Ctx) (folderPath name : String) (xs ys : Entries),
        tasksP ctx folderPath (xs.append (.cons name (.blob none) ys))
          = tasksP ctx folderPath xs
            ++ [.fetchCall (fullPathOf folderPath name),
                .warnFile (fullPathOf folderPath name)]
            ++ tasksP ctx folderPath ys) := by
  refine ⟨fun ctx fp => by simp [downloadFolderP],
    fun ctx fp => ⟨rfl, rfl⟩,
    tasksP_append,
    fun ctx fp name xs ys => ?_⟩
  rw [tasksP_append, tasksP]
  have : taskP ctx fp name (.blob none)
      = [.fetchCall (fullPathOf fp name), .warnFile (fullPathOf fp name)] := by
    rw [taskP.eq_def]
    simp [nodeIsTree, downloadFileEv]
  rw [this]
  simp

/-! ## Writes land at destination-joined full paths (C6) -/

mutual
theorem writesOf_folder (ctx : Ctx) (folderPath : String) (l : Listing) :
    writesOf (downloadFolderP ctx folderPath l) = specWrites ctx folderPath l := by
  cases l with
  | fail => simp [downloadFolderP, specWrites, writesOf]
  | ok items =>
    rw [downloadFolderP, specWrites]
    have := writesOf_tasks ctx folderPath items
    simpa [writesOf] using this
termination_by sizeOf l

theorem writesOf_tasks (ctx : Ctx) (folderPath : String) (items : Entries) :
    writesOf (tasksP ctx folderPath items) = specWritesEntries ctx folderPath items := by
  cases items with
  | nil => simp [tasksP, specWritesEntries, writesOf]
  | cons name node rest =>
    rw [tasksP, specWritesEntries, writesOf_append,
      writesOf_task ctx folderPath name node, writesOf_tasks ctx folderPath rest]
termination_by sizeOf items

theorem writesOf_task (ctx : Ctx) (folderPath name : String) (node : Node) :
    writesOf (taskP ctx folderPath name node) = specWriteEntry ctx folderPath name node := by
  rw [taskP.eq_def, specWriteEntry.eq_def]
  have hfp : specFullPath folderPath name = fullPathOf folderPath name := rfl
  rw [hfp]
  by_cases hc : (decide (0 < ctx.includeOnly.length) && nodeIsTree node
      && !(ctx.includeOnly.any fun accept =>
            jsIncludes (fullPathOf folderPath name) accept)) = true
  · simp only [hc, if_true, writesOf]
  · rw [Bool.not_eq_true] at hc
    simp only [hc, Bool.false_eq_true, if_false]
    cases node with
    | blob res => cases res <;> simp [downloadFileEv, writesOf]
    | tree sub => exact writesOf_folder ctx (fullPathOf folderPath name) sub
    | other => simp [writesOf]
termination_by sizeOf node
end

/-- C6: the spec's full-path rule is exactly the engine's (`parent/name`
joined with `/`, just the name at an empty parent), and the traversal's
local writes are exactly the files the spec's rule places at
`destinationRoot` (= `cwd` joined with `DOWNLOAD_DIR`) joined with the
full path (`fs.outputFile` creates missing parent directories). -/
theorem files_written_at_joined_paths :
    (∀ parent name : String,
        specFullPath parent name
          = if parent = "" then name else parent ++ "/" ++ name)
    ∧ (∀ (ctx : Ctx) (folderPath : String) (l : Listing),
        writesOf (downloadFolderP ctx folderPath l) = specWrites ctx folderPath l) :=
  ⟨fun _ _ => rfl, writesOf_folder⟩

/-! ## Parallel and sequential variants agree (C10) -/

mutual
theorem pEqS_folder (ctx : Ctx) (folderPath : String) (l : Listing) :
    downloadFolderP ctx folderPath l = downloadFolderS ctx folderPath l := by
  cases l with
  | fail => simp [downloadFolderP, downloadFolderS]
  | ok items =>
    rw [downloadFolderP, downloadFolderS, pEqS_entries ctx folderPath items]
termination_by sizeOf l

theorem pEqS_entries (ctx : Ctx) (folderPath : String) (items : Entries) :
    tasksP ctx folderPath items = loopS ctx folderPath items := by
  cases items with
  | nil => simp [tasksP, loopS]
  | cons name node rest =>
    rw [tasksP, taskP.eq_def, loopS.eq_def]
    by_cases hc : (decide (0 < ctx.includeOnly.length) && nodeIsTree node
        && !(ctx.includeOnly.any fun accept =>
              jsIncludes (fullPathOf folderPath name) accept)) = true
    · simp only [hc, if_true, pEqS_entries ctx folderPath rest]
      rfl
    · rw [Bool.not_eq_true] at hc
      simp only [hc, Bool.false_eq_true, if_false]
      cases node with
      | blob res =>
        cases res <;>
          simp [downloadFileEv, downloadFileEvS, pEqS_entries ctx folderPath rest]
      | tree sub =>
        simp only [pEqS_folder ctx (fullPathOf folderPath name) sub,
          pEqS_entries ctx folderPath rest]
      | other => simp [pEqS_entries ctx folderPath rest]
termination_by sizeOf items
end

/-- C10: on the same remote tree, per-path fetch results, filter and
destination, the parallel engine and the sequential engine perform exactly
the same local writes — the same set of file paths with the same bytes. -/
theorem parallel_sequential_same_writes :
    ∀ (ctx : Ctx) (folderPath : String) (l : Listing) (p : String) (b : List Nat),
      (p, b) ∈ writesOf (downloadFolderP ctx folderPath l)
        ↔ (p, b) ∈ writesOf (downloadFolderS ctx folderPath l) := by
  intro ctx folderPath l p b
  rw [pEqS_folder]

/-! ## The run-skip cache and `main` (C1, C3, C5, C8) -/

/-- C1: the skip decision is true iff prior persisted state exists and
both its stored commit hash and its stored args-hash fingerprint equal the
current ones; an absent or unreadable prior state, or any differing field,
means no skip — over every combination of inputs. -/
theorem shouldSkip_iff_matching_state :
    ∀ (latest fingerprint : String) (prior : Option CachedData),
      shouldSkip latest fingerprint prior = true
        ↔ ∃ c, prior = some c ∧ c.commit = some latest
            ∧ c.argsHash = some fingerprint := by
  intro latest fingerprint prior
  cases prior with
  | none =>
    simp only [shouldSkip, Option.getD]
    constructor
    · intro h
      exact absurd h (by simp)
    · rintro ⟨c, hc, -⟩
      exact absurd hc (by simp)
  | some c =>
    obtain ⟨oc, oa⟩ := c
    simp [shouldSkip]

/-- C3: the persisted state is overwritten exactly when the run neither
aborts on the commit lookup nor exits via the skip check — never on an
early-skip exit, and always after a completed pass, whatever warnings the
traversal produced (the saved value does not depend on the remote listings
at all). -/
theorem state_saved_only_after_full_pass :
    ∀ env : MainEnv,
      ((mainRun env).saved = none ↔
        (jsFalsyStr env.latest = true
          ∨ shouldSkip (env.latest.getD "") (generateArgsHash env.cfg)
              env.cacheRead = true))
      ∧ (jsFalsyStr env.latest = false →
          shouldSkip (env.latest.getD "") (generateArgsHash env.cfg)
              env.cacheRead = false →
          (mainRun env).saved
            = some (env.latest.getD "", generateArgsHash env.cfg))
      ∧ (∀ rl : String → Listing,
          (mainRun { env with rootListing := rl }).saved = (mainRun env).saved) := by
  intro env
  refine ⟨?_, ?_, ?_⟩
  · by_cases hf : jsFalsyStr env.latest = true
    · simp [mainRun, hf]
    · rw [Bool.not_eq_true] at hf
      by_cases hs : shouldSkip (env.latest.getD "") (generateArgsHash env.cfg)
          env.cacheRead = true
      · simp [mainRun, hf, hs]
      · rw [Bool.not_eq_true] at hs
        simp [mainRun, hf, hs]
  · intro hf hs
    simp [mainRun, hf, hs]
  · intro rl
    by_cases hf : jsFalsyStr env.latest = true
    · simp [mainRun, hf]
    · rw [Bool.not_eq_true] at hf
      by_cases hs : shouldSkip (env.latest.getD "") (generateArgsHash env.cfg)
          env.cacheRead = true
      · simp [mainRun, hf, hs]
      · rw [Bool.not_eq_true] at hs
        simp [mainRun, hf, hs]

theorem state_saved_only_after_full_pass_witness :
    jsFalsyStr (some "abc") = false
    ∧ shouldSkip ((some "abc" : Option String).getD "")
        (generateArgsHash ⟨"1", "master", [], ""⟩) none = false
    ∧ (mainRun ⟨some "abc", none, ⟨"1", "master", [], ""⟩, "/w",
          fun _ => .fail⟩).saved
      = some (((some "abc" : Option String)).getD "",
          generateArgsHash ⟨"1", "master", [], ""⟩) :=
  ⟨rfl, rfl,
    (state_saved_only_after_full_pass
      ⟨some "abc", none, ⟨"1", "master", [], ""⟩, "/w", fun _ => .fail⟩).2.1 rfl rfl⟩

/-- C5 counterexample: at a run whose commit lookup fails, the code logs
the error and returns from `main` — the process exit code is 0, not the
non-zero exit the claim demands (no listing, fetch, write or state update
happens, but the exit is a normal one). -/
theorem fatal_commit_lookup_exit_code_is_zero :
    (mainRun ⟨none, none, ⟨"1", "master", [], ""⟩, "/w", fun _ => .fail⟩).exitCode = 0
    ∧ (mainRun ⟨none, none, ⟨"1", "master", [], ""⟩, "/w", fun _ => .fail⟩).events
        = [.logError]
    ∧ (mainRun ⟨none, none, ⟨"1", "master", [], ""⟩, "/w", fun _ => .fail⟩).saved
        = none :=
  ⟨rfl, rfl, rfl⟩

/-- C5 as amended: whenever the latest commit hash cannot be resolved
(`null` from the catch branch, or a falsy value), the run aborts after
logging the error: no tree listing is issued, no file is fetched or
written, the persisted state is not updated — and the process exits
normally with code 0 (not non-zero). -/
theorem fatal_commit_lookup_aborts :
    ∀ env : MainEnv, jsFalsyStr env.latest = true →
      mainRun env = ⟨[.logError], none, 0⟩ := by
  intro env h
  simp [mainRun, h]

theorem fatal_commit_lookup_aborts_witness :
    jsFalsyStr none = true
    ∧ mainRun ⟨none, none, ⟨"1", "master", [], ""⟩, "/w", fun _ => .fail⟩
        = ⟨[.logError], none, 0⟩ :=
  ⟨rfl, fatal_commit_lookup_aborts
    ⟨none, none, ⟨"1", "master", [], ""⟩, "/w", fun _ => .fail⟩ rfl⟩

/-- C8: when the prior state's commit hash equals the (truthy) current one
and its fingerprint equals the current args hash, the run produces no
events at all — zero remote tree listings, zero file fetches — and exits
right after the skip check without touching the persisted state. -/
theorem matching_cache_skips_all_remote_calls :
    ∀ (env : MainEnv) (s : String) (c : CachedData),
      env.latest = some s → s.isEmpty = false →
      env.cacheRead = some c →
      c.commit = some s →
      c.argsHash = some (generateArgsHash env.cfg) →
      (mainRun env).events = [] ∧ (mainRun env).saved = none := by
  intro env s c hl hs hc hcommit hhash
  have hf : jsFalsyStr env.latest = false := by
    rw [hl]; simpa [jsFalsyStr] using hs
  have hskip : shouldSkip (env.latest.getD "") (generateArgsHash env.cfg)
      env.cacheRead = true := by
    rw [hl, hc]
    simp [shouldSkip, hcommit, hhash]
  simp [mainRun, hf, hskip]

theorem matching_cache_skips_all_remote_calls_witness :
    (⟨some "abc", some ⟨some "abc", some (generateArgsHash ⟨"1", "master", [], ""⟩)⟩,
        ⟨"1", "master", [], ""⟩, "/w", fun _ => .fail⟩ : MainEnv).latest = some "abc"
    ∧ ("abc" : String).isEmpty = false
    ∧ (mainRun ⟨some "abc",
          some ⟨some "abc", some (generateArgsHash ⟨"1", "master", [], ""⟩)⟩,
          ⟨"1", "master", [], ""⟩, "/w", fun _ => .fail⟩).events = []
    ∧ (mainRun ⟨some "abc",
          some ⟨some "abc", some (generateArgsHash ⟨"1", "master", [], ""⟩)⟩,
          ⟨"1", "master", [], ""⟩, "/w", fun _ => .fail⟩).saved = none := by
  refine ⟨rfl, rfl, ?_⟩
  have := matching_cache_skips_all_remote_calls
    ⟨some "abc", some ⟨some "abc", some (generateArgsHash ⟨"1", "master", [], ""⟩)⟩,
      ⟨"1", "master", [], ""⟩, "/w", fun _ => .fail⟩
    "abc" ⟨some "abc", some (generateArgsHash ⟨"1", "master", [], ""⟩)⟩
    rfl rfl rfl rfl rfl
  exact this

/-! ## Injectivity of the stringified argument record (towards C7) -/

theorem hexVal_hexDigitChar {m : Nat} (h : m < 16) :
    hexVal (hexDigitChar m) = m := by
  interval_cases m <;> decide

theorem unescape_escape (s r : List Char) :
    unescapeAux (escapeChars s ++ '"' :: r) = some (s, r) := by
  induction s with
  | nil => simp [escapeChars, unescapeAux]
  | cons c cs ih =>
    have hstep : escapeChars (c :: cs) ++ '"' :: r
        = escChar c ++ (escapeChars cs ++ '"' :: r) := by
      simp [escapeChars, List.append_assoc]
    rw [hstep]
    by_cases h1 : c = '"'
    · subst h1
      have he : escChar '"' = ['\\', '"'] := by decide
      rw [he, unescapeAux.eq_def]
      simp
      rw [unescSlash.eq_def]
      simp [ih, unescChar]
    by_cases h2 : c = '\\'
    · subst h2
      have he : escChar '\\' = ['\\', '\\'] := by decide
      rw [he, unescapeAux.eq_def]
      simp
      rw [unescSlash.eq_def]
      simp [ih, unescChar]
    by_cases h3 : c.toNat = 8
    · have he : escChar c = ['\\', 'b'] := by rw [escChar]; simp [h1, h2, h3]
      have hc : unescChar 'b' = c := by
        rw [show unescChar 'b' = Char.ofNat 8 from by decide, ← h3, Char.ofNat_toNat]
      rw [he, unescapeAux.eq_def]
      simp
      rw [unescSlash.eq_def]
      simp [ih, hc]
    by_cases h4 : c.toNat = 9
    · have he : escChar c = ['\\', 't'] := by rw [escChar]; simp [h1, h2, h3, h4]
      have hc : unescChar 't' = c := by
        rw [show unescChar 't' = Char.ofNat 9 from by decide, ← h4, Char.ofNat_toNat]
      rw [he, unescapeAux.eq_def]
      simp
      rw [unescSlash.eq_def]
      simp [ih, hc]
    by_cases h5 : c.toNat = 10
    · have he : escChar c = ['\\', 'n'] := by rw [escChar]; simp [h1, h2, h3, h4, h5]
      have hc : unescChar 'n' = c := by
        rw [show unescChar 'n' = Char.ofNat 10 from by decide, ← h5, Char.ofNat_toNat]
      rw [he, unescapeAux.eq_def]
      simp
      rw [unescSlash.eq_def]
      simp [ih, hc]
    by_cases h6 : c.toNat = 12
    · have he : escChar c = ['\\', 'f'] := by rw [escChar]; simp [h1, h2, h3, h4, h5, h6]
      have hc : unescChar 'f' = c := by
        rw [show unescChar 'f' = Char.ofNat 12 from by decide, ← h6, Char.ofNat_toNat]
      rw [he, unescapeAux.eq_def]
      simp
      rw [unescSlash.eq_def]
      simp [ih, hc]
    by_cases h7 : c.toNat = 13
    · have he : escChar c = ['\\', 'r'] := by
        rw [escChar]; simp [h1, h2, h3, h4, h5, h6, h7]
      have hc : unescChar 'r' = c := by
        rw [show unescChar 'r' = Char.ofNat 13 from by decide, ← h7, Char.ofNat_toNat]
      rw [he, unescapeAux.eq_def]
      simp
      rw [unescSlash.eq_def]
      simp [ih, hc]
    by_cases h8 : c.toNat < 32
    · have he : escChar c
          = ['\\', 'u', '0', '0', hexDigitChar (c.toNat / 16), hexDigitChar (c.toNat % 16)] := by
        rw [escChar]; simp [h1, h2, h3, h4, h5, h6, h7, h8]
      have hx : hexVal (hexDigitChar (c.toNat / 16)) = c.toNat / 16 :=
        hexVal_hexDigitChar (by omega)
      have hy : hexVal (hexDigitChar (c.toNat % 16)) = c.toNat % 16 :=
        hexVal_hexDigitChar (by omega)
      have hc : Char.ofNat (c.toNat / 16 * 16 + c.toNat % 16) = c := by
        have hdm : c.toNat / 16 * 16 + c.toNat % 16 = c.toNat := by omega
        rw [hdm, Char.ofNat_toNat]
      rw [he]
      simp [unescapeAux, unescSlash, ih, hx, hy, hc]
    · have he : escChar c = [c] := by
        rw [escChar]; simp [h1, h2, h3, h4, h5, h6, h7, h8]
      rw [he]
      simp [unescapeAux, h1, h2, ih]

theorem escape_quote_cancel {s1 r1 s2 r2 : List Char}
    (h : escapeChars s1 ++ '"' :: r1 = escapeChars s2 ++ '"' :: r2) :
    s1 = s2 ∧ r1 = r2 := by
  have h1 := unescape_escape s1 r1
  have h2 := unescape_escape s2 r2
  rw [h] at h1
  have h3 := h1.symm.trans h2
  simpa using h3

theorem jstrL_cancel {a b r s : List Char}
    (h : jstrL a ++ r = jstrL b ++ s) : a = b ∧ r = s := by
  have h' : escapeChars a ++ '"' :: r = escapeChars b ++ '"' :: s := by
    have hx : ('"' :: (escapeChars a ++ ('"' :: r)) : List Char)
        = '"' :: (escapeChars b ++ ('"' :: s)) := by
      simpa [jstrL, List.append_assoc] using h
    simpa using hx
  exact escape_quote_cancel h'

theorem jstrS_cancel {x y : String} {r s : List Char}
    (h : jstrS x ++ r = jstrS y ++ s) : x = y ∧ r = s := by
  obtain ⟨hd, ht⟩ := jstrL_cancel h
  refine ⟨?_, ht⟩
  cases x
  cases y
  exact congrArg String.mk (by simpa using hd)

theorem sepTail_cancel :
    ∀ {xs ys : List String} {r s : List Char},
      sepTail xs ++ r = sepTail ys ++ s → xs = ys ∧ r = s := by
  intro xs
  induction xs with
  | nil =>
    intro ys r s h
    cases ys with
    | nil => simpa [sepTail] using h
    | cons y ys' =>
      exfalso
      have : (']' : Char) = ',' := by
        simpa [sepTail, List.append_assoc] using congrArg (fun l => l.head?) h
      exact absurd this (by decide)
  | cons x xs' ih =>
    intro ys r s h
    cases ys with
    | nil =>
      exfalso
      have : (',' : Char) = ']' := by
        simpa [sepTail, List.append_assoc] using congrArg (fun l => l.head?) h
      exact absurd this (by decide)
    | cons y ys' =>
      simp only [sepTail, List.cons_append, List.cons.injEq, List.append_assoc] at h
      obtain ⟨hx, hrest⟩ := jstrS_cancel h.2
      obtain ⟨hxs, hr⟩ := ih hrest
      exact ⟨by rw [hx, hxs], hr⟩

theorem jarrL_cancel {xs ys : List String} {r s : List Char}
    (h : jarrL xs ++ r = jarrL ys ++ s) : xs = ys ∧ r = s := by
  cases xs with
  | nil =>
    cases ys with
    | nil => simpa [jarrL] using h
    | cons y ys' =>
      exfalso
      simp only [jarrL, List.cons_append, List.cons.injEq, List.append_assoc] at h
      have : (']' : Char) = '"' := by
        simpa [jstrS, jstrL] using congrArg (fun l => l.head?) h.2
      exact absurd this (by decide)
  | cons x xs' =>
    cases ys with
    | nil =>
      exfalso
      simp only [jarrL, List.cons_append, List.cons.injEq, List.append_assoc] at h
      have : ('"' : Char) = ']' := by
        simpa [jstrS, jstrL] using congrArg (fun l => l.head?) h.2
      exact absurd this (by decide)
    | cons y ys' =>
      simp only [jarrL, List.cons_append, List.cons.injEq, List.append_assoc] at h
      obtain ⟨hx, hrest⟩ := jstrS_cancel h.2
      obtain ⟨hxs, hr⟩ := sepTail_cancel hrest
      exact ⟨by rw [hx, hxs], hr⟩

theorem argsChars_inj {c1 c2 : ArgsConfig}
    (h : argsChars c1 = argsChars c2) : c1 = c2 := by
  unfold argsChars at h
  simp only [List.append_assoc] at h
  have h1 := List.append_cancel_left h
  obtain ⟨hpid, h2⟩ := jstrS_cancel h1
  have h3 := List.append_cancel_left h2
  obtain ⟨hbr, h4⟩ := jstrS_cancel h3
  have h5 := List.append_cancel_left h4
  obtain ⟨hinc, h6⟩ := jarrL_cancel h5
  have h7 := List.append_cancel_left h6
  obtain ⟨hdd, -⟩ := jstrS_cancel h7
  cases c1
  cases c2
  simp_all

/-! ## The digest is a 256-bit value, hence not injective (towards C7) -/

theorem wadd_lt (a b : Nat) : wadd a b < 4294967296 :=
  Nat.mod_lt _ (by norm_num)

theorem compress_bounded (h : Hash8) (block : List Nat) :
    (compress h block).bounded :=
  ⟨wadd_lt _ _, wadd_lt _ _, wadd_lt _ _, wadd_lt _ _,
   wadd_lt _ _, wadd_lt _ _, wadd_lt _ _, wadd_lt _ _⟩

theorem initH8_bounded : initH8.bounded := by
  refine ⟨?_, ?_, ?_, ?_, ?_, ?_, ?_, ?_⟩ <;> norm_num [initH8]

theorem foldl_compress_bounded (blocks : List (List Nat)) (h : Hash8)
    (hb : h.bounded) : (blocks.foldl compress h).bounded := by
  induction blocks generalizing h with
  | nil => simpa using hb
  | cons b bs ih =>
    rw [List.foldl_cons]
    exact ih _ (compress_bounded h b)

theorem sha256Hash_bounded (msg : List Nat) : (sha256Hash msg).bounded :=
  foldl_compress_bounded _ _ initH8_bounded

theorem mulAddLt {acc x A : Nat} (ha : acc < A) (hx : x < 4294967296) :
    acc * 4294967296 + x < A * 4294967296 := by nlinarith

theorem digestNat_lt {h : Hash8} (hb : h.bounded) : digestNat h < 2 ^ 256 := by
  obtain ⟨b0, b1, b2, b3, b4, b5, b6, b7⟩ := hb
  have t1 := mulAddLt b0 b1
  have t2 := mulAddLt t1 b2
  have t3 := mulAddLt t2 b3
  have t4 := mulAddLt t3 b4
  have t5 := mulAddLt t4 b5
  have t6 := mulAddLt t5 b6
  have t7 := mulAddLt t6 b7
  have hpow : ((((((4294967296 * 4294967296 * 4294967296) * 4294967296)
      * 4294967296) * 4294967296) * 4294967296) * 4294967296 : Nat) = 2 ^ 256 := by
    norm_num
  unfold digestNat
  calc _ < _ := t7
  _ = 2 ^ 256 := by rw [← hpow]

/-- C7 counterexample: the claim "changing any one of the four fields
changes the resulting fingerprint" is false.  The digest is one of at most
`2^256` values while the configurations varying `PROJECT_ID` alone are
infinitely many, so two configurations differing only in `PROJECT_ID`
share the same `generateArgsHash` output (pigeonhole; no explicit pair is
feasible to exhibit, the proof is nonconstructive). -/
theorem fingerprint_digest_collision_exists :
    ∃ c1 c2 : ArgsConfig,
      c1.branch = c2.branch ∧ c1.includeOnly = c2.includeOnly
      ∧ c1.downloadDir = c2.downloadDir ∧ c1.projectId ≠ c2.projectId
      ∧ generateArgsHash c1 = generateArgsHash c2 := by
  classical
  have hmaps : Set.MapsTo
      (fun n => digestNat (sha256Hash (utf8Encode
        (argsChars ⟨⟨List.replicate n 'a'⟩, "master", [], ""⟩))))
      Set.univ (Set.Iio (2 ^ 256)) :=
    fun n _ => digestNat_lt (sha256Hash_bounded _)
  obtain ⟨m, -, n, -, hmn, heq⟩ :=
    (Set.infinite_univ (α := Nat)).exists_ne_map_eq_of_mapsTo hmaps (Set.finite_Iio _)
  refine ⟨⟨⟨List.replicate m 'a'⟩, "master", [], ""⟩,
    ⟨⟨List.replicate n 'a'⟩, "master", [], ""⟩, rfl, rfl, rfl, ?_, ?_⟩
  · intro hpid
    apply hmn
    have hd := congrArg String.data hpid
    simpa using congrArg List.length hd
  · unfold generateArgsHash sha256hex
    exact congrArg (fun d => (⟨toHexFixed 64 d⟩ : String)) heq

/-- C7 as amended: the fingerprint is deterministic — equal configuration
tuples give equal `generateArgsHash` outputs — and changing any field
changes the stringified argument record that is hashed (the hash input is
injective in the tuple); only a SHA-256 digest collision, which exists by
pigeonhole but is infeasible to exhibit, can make two distinct tuples
share a fingerprint. -/
theorem fingerprint_deterministic_and_input_injective :
    ∀ c1 c2 : ArgsConfig,
      (c1 = c2 → generateArgsHash c1 = generateArgsHash c2)
      ∧ (c1 ≠ c2 → argsString c1 ≠ argsString c2) := by
  intro c1 c2
  refine ⟨fun h => by rw [h], fun hne hs => hne (argsChars_inj ?_)⟩
  exact congrArg String.data hs

theorem fingerprint_deterministic_and_input_injective_witness :
    (⟨"1", "master", [], ""⟩ : ArgsConfig) ≠ ⟨"2", "master", [], ""⟩
    ∧ argsString ⟨"1", "master", [], ""⟩ ≠ argsString ⟨"2", "master", [], ""⟩ :=
  ⟨by decide,
   (fingerprint_deterministic_and_input_injective
      ⟨"1", "master", [], ""⟩ ⟨"2", "master", [], ""⟩).2 (by decide)⟩

end GitlabDL
